import Mathlib

/-!
Verification development for the directory-tree synchronization engine of
`mpkernel` (file `mpkernel/magic/rsync.py`).

The Python source is shallowly embedded:

* listing lines are plain `String`s, exactly as produced by `local_list`
  (`f"F,{level},{repr(full_path)},{mtime},{fsize}"` and the `D` variant);
* Python's `str.split(",")`, `str.startswith`, `repr` of a string, and
  `eval` restricted to string literals (the only shape the listing code
  feeds it) are modelled by executable Lean functions on `List Char`;
* Python dicts keyed by strings are modelled as association lists whose
  assignment operator (`upsert`) replaces in place or appends, which is
  observationally Python's insertion-ordered dict for the nodup-key lists
  the code constructs;
* exceptions (ValueError from tuple unpacking, SyntaxError from `eval`,
  IndexError from field access) are modelled with `Option`: `none` means
  the Python code raises.

All definitions are structural recursions, so concrete runs reduce with
`rfl`/`decide`.
-/

/-! ### Character constants (written via code points to keep escapes out of literals) -/

/-- The single-quote character `'`. -/
def sqC : Char := Char.ofNat 39

/-- The double-quote character `"`. -/
def dqC : Char := Char.ofNat 34

/-- The backslash character. -/
def bsC : Char := Char.ofNat 92

/-! ### Python `str.split(",")` -/

/-- Split a character list at every comma; models Python `s.split(",")`,
which never drops empty fields. -/
def splitComma : List Char → List (List Char)
  | [] => [[]]
  | c :: rest =>
    if c = ',' then [] :: splitComma rest
    else
      match splitComma rest with
      | [] => [[c]]
      | g :: gs => (c :: g) :: gs

/-- `pySplitComma s` models Python `s.split(",")`. -/
def pySplitComma (s : String) : List String :=
  (splitComma s.data).map String.mk

/-- Models Python `s.startswith(pre)`. -/
def pyStartsWith (s pre : String) : Bool :=
  pre.data.isPrefixOf s.data

/-- Models Python `s.endswith(suf)`. -/
def pyEndsWith (s suf : String) : Bool :=
  suf.data.isSuffixOf s.data

/-- Models Python `s[1:]` for strings. -/
def pyDropOne (s : String) : String :=
  String.mk (s.data.drop 1)

/-- The leading-`/` strip done by both `FileList.filter` and
`FileList.as_map`: `if path.startswith("/"): path = path[1:]`. -/
def stripSlash (p : String) : String :=
  if pyStartsWith p "/" then pyDropOne p else p

/-! ### Python `repr` for strings (used by `local_list` to quote paths) -/

/-- Is the character emitted verbatim by `repr`?  ASCII controls and DEL are
escaped; everything else is printed as-is (Python prints printable text
directly). -/
def reprPlain (c : Char) : Bool :=
  32 ≤ c.toNat && c.toNat ≠ 127

/-- Lower-case hexadecimal digit. -/
def hexDigit (n : Nat) : Char :=
  if n < 10 then Char.ofNat (48 + n) else Char.ofNat (87 + n)

/-- Escape one character the way Python `repr` does, given the chosen
surrounding quote character `q`. -/
def escapeChar (q c : Char) : List Char :=
  if c = bsC then [bsC, bsC]
  else if c = q then [bsC, q]
  else if c.toNat = 10 then [bsC, 'n']
  else if c.toNat = 13 then [bsC, 'r']
  else if c.toNat = 9 then [bsC, 't']
  else if reprPlain c then [c]
  else [bsC, 'x', hexDigit (c.toNat / 16), hexDigit (c.toNat % 16)]

/-- Python `repr` of a string: single quotes unless the string contains a
single quote and no double quote, in which case double quotes. -/
def pyRepr (s : String) : String :=
  let q := if s.data.contains sqC && !s.data.contains dqC then dqC else sqC
  String.mk (q :: s.data.flatMap (escapeChar q) ++ [q])

/-! ### Python `eval` restricted to string literals

The listing code feeds `eval` the third comma-field of a line, which for a
well-formed line is a `repr`-quoted path literal.  `evalStrLit` decodes
exactly those: `none` models the SyntaxError/other exception Python raises
when the field is not a complete string literal. -/

/-- Value of a hexadecimal digit character. -/
def hexVal (c : Char) : Option Nat :=
  if 48 ≤ c.toNat && c.toNat ≤ 57 then some (c.toNat - 48)
  else if 97 ≤ c.toNat && c.toNat ≤ 102 then some (c.toNat - 87)
  else if 65 ≤ c.toNat && c.toNat ≤ 70 then some (c.toNat - 55)
  else none

/-- Decode the body of a quoted literal with closing quote `q`; requires the
closing quote to end the input (anything after it is a syntax error). -/
def strBody (q : Char) : List Char → Option (List Char)
  | [] => none
  | c :: rest =>
    if c = q then (if rest.isEmpty then some [] else none)
    else if c = bsC then
      match rest with
      | [] => none
      | e :: rest2 =>
        if e = bsC then (strBody q rest2).map (fun l => bsC :: l)
        else if e = sqC then (strBody q rest2).map (fun l => sqC :: l)
        else if e = dqC then (strBody q rest2).map (fun l => dqC :: l)
        else if e = 'n' then (strBody q rest2).map (fun l => Char.ofNat 10 :: l)
        else if e = 'r' then (strBody q rest2).map (fun l => Char.ofNat 13 :: l)
        else if e = 't' then (strBody q rest2).map (fun l => Char.ofNat 9 :: l)
        else if e = 'x' then
          match rest2 with
          | h1 :: h2 :: rest3 =>
            match hexVal h1, hexVal h2 with
            | some a, some b => (strBody q rest3).map (fun l => Char.ofNat (16 * a + b) :: l)
            | _, _ => none
          | _ => none
        else (strBody q rest2).map (fun l => bsC :: e :: l)
    else (strBody q rest).map (fun l => c :: l)

/-- Python `eval` of a string-literal expression; `none` when the input is
not a single complete string literal. -/
def evalStrLit (s : String) : Option String :=
  match s.data with
  | [] => none
  | c :: rest =>
    if c = sqC || c = dqC then (strBody c rest).map String.mk
    else none

/-! ### Numeric field parsing (`int(...)` / `float(...)` on listing fields) -/

/-- Decimal digit value. -/
def digVal (c : Char) : Option Nat :=
  if 48 ≤ c.toNat && c.toNat ≤ 57 then some (c.toNat - 48) else none

/-- Accumulating decimal parser. -/
def parseNatGo : List Char → Nat → Option Nat
  | [], acc => some acc
  | c :: rest, acc =>
    match digVal c with
    | some d => parseNatGo rest (acc * 10 + d)
    | none => none

/-- Parse a non-negative decimal numeral; models `int(...)`/`float(...)` on
the numeric listing fields, which the walkers always render as decimal
naturals. -/
def parseNat (s : String) : Option Nat :=
  match s.data with
  | [] => none
  | l => parseNatGo l 0

/-- Parse a possibly negative decimal numeral; models `int(level)` (the
level field can be `-1`). -/
def parseInt (s : String) : Option Int :=
  match s.data with
  | [] => none
  | c :: rest =>
    if c = '-' then
      match rest with
      | [] => none
      | l => (parseNatGo l 0).map (fun n => -(n : Int))
    else (parseNatGo (c :: rest) 0).map Int.ofNat

/-! ### Listing-line encoding (source: `local_list`, rsync.py lines 259 and 264) -/

/-- `f"F,{level},{repr(full_path)},{mtime},{fsize}"`. -/
def encF (level : Int) (path : String) (mtime size : Nat) : String :=
  "F," ++ toString level ++ "," ++ pyRepr path ++ "," ++ toString mtime ++ "," ++ toString size

/-- `f"D,{level},{repr(full_path)},{mtime},0"`. -/
def encD (level : Int) (path : String) (mtime : Nat) : String :=
  "D," ++ toString level ++ "," ++ pyRepr path ++ "," ++ toString mtime ++ ",0"

/-! ### Map entries (the per-path dict built by `FileList.as_map`) -/

/-- The metadata dict `FileList.as_map` stores per path
(rsync.py lines 239–245). -/
structure FParam where
  is_dir : Bool
  level : Int
  mtime : Nat
  size : Nat
  abs_path : String
deriving DecidableEq, Repr

/-- Decode one listing line the way `FileList.as_map` does
(rsync.py lines 235–245): split on every comma, unpack exactly five fields
(`ValueError` otherwise), `eval` the path literal, strip a leading `/`, and
parse the numeric fields.  `none` models the exception paths. -/
def decodeLine (f : String) (abs_path : String) : Option (String × FParam) :=
  match pySplitComma f with
  | [kind, level, path, mtime, size] =>
    match evalStrLit path with
    | none => none
    | some p =>
      match parseInt level, parseNat mtime, parseNat size with
      | some lv, some mt, some sz =>
        some (stripSlash p, ⟨kind == "D", lv, mt, sz, abs_path⟩)
      | _, _, _ => none
  | _ => none

/-! ### Shell glob matching (Python `fnmatch.fnmatch` on a POSIX host)

`fnmatch` matches the whole name against the pattern: `*` matches any run
of characters, `?` a single character, `[...]` a character class with
ranges and `!` negation (an unterminated `[` is a literal bracket).  The
matcher is written with an explicit fuel argument so that it is a
structural recursion; every recursive call shrinks `pattern + name` by at
least one character, so `length pattern + length name + 1` fuel is always
enough and the result does not depend on the fuel beyond that. -/

/-- Character-class membership, with `a-z` ranges; a trailing or leading
`-` is a literal. -/
def inClass (c : Char) : List Char → Bool
  | [] => false
  | a :: '-' :: b :: rest => (a.toNat ≤ c.toNat && c.toNat ≤ b.toNat) || inClass c rest
  | a :: rest => c = a || inClass c rest

/-- Split a bracket expression: input is the pattern after `[`; returns
(negated, class content, rest after the closing bracket), or `none` when
no closing bracket exists.  A `]` directly after `[` or `[!` is literal
content, as in Python's `fnmatch.translate`. -/
def splitClass (p : List Char) : Option (Bool × List Char × List Char) :=
  match p with
  | '!' :: p1 => (classScan p1).map (fun r => (true, r))
  | p1 => (classScan p1).map (fun r => (false, r))
where
  classScan : List Char → Option (List Char × List Char)
    | [] => none
    | ']' :: r =>
      match scanRest r with
      | some (cs, rest) => some (']' :: cs, rest)
      | none => none
    | c :: r =>
      match scanRest (c :: r) with
      | some (cs, rest) => some (cs, rest)
      | none => none
  scanRest : List Char → Option (List Char × List Char)
    | [] => none
    | ']' :: r => some ([], r)
    | c :: r => (scanRest r).map (fun pr => (c :: pr.1, pr.2))

/-- Fuel-indexed glob matcher core. -/
def globMatch : Nat → List Char → List Char → Bool
  | 0, _, _ => false
  | _ + 1, [], s => s.isEmpty
  | fuel + 1, '*' :: p, s =>
    globMatch fuel p s ||
      (match s with
       | [] => false
       | _ :: s2 => globMatch fuel ('*' :: p) s2)
  | fuel + 1, '?' :: p, s =>
    (match s with
     | [] => false
     | _ :: s2 => globMatch fuel p s2)
  | fuel + 1, '[' :: p, s =>
    (match splitClass p with
     | none =>
       match s with
       | c :: s2 => c = '[' && globMatch fuel p s2
       | [] => false
     | some (neg, items, rest) =>
       match s with
       | [] => false
       | c :: s2 => (inClass c items != neg) && globMatch fuel rest s2)
  | fuel + 1, c :: p, s =>
    (match s with
     | [] => false
     | d :: s2 => c = d && globMatch fuel p s2)

/-- Python `fnmatch.fnmatch(name, pat)` (case-sensitive POSIX behavior). -/
def fnmatch (name pat : String) : Bool :=
  globMatch (pat.data.length + name.data.length + 1) pat.data name.data

/-! ### `FileList.filter` (rsync.py lines 215–230)

The source walks the raw lines, keeping a boolean verdict per line:

* a line starting with `"D"` starts with verdict `True`;
* `path = eval(f.split(",")[2])`, stripped of a leading `/`
  (an exception here aborts the whole filter: modelled by `none`);
* every matching `include` pattern sets the verdict to `True`;
* every matching `exclude` pattern then sets it to `False`.
-/

/-- The `f.split(",")[2]` / `eval` / strip-slash path extraction shared by
the filter. -/
def extractPath (f : String) : Option String :=
  match (pySplitComma f).get? 2 with
  | none => none
  | some fld =>
    match evalStrLit fld with
    | none => none
    | some p => some (stripSlash p)

/-- The per-line verdict of `FileList.filter`. -/
def filterVerdict (f : String) (inc exc : List String) : Option Bool :=
  match extractPath f with
  | none => none
  | some path =>
    let v0 := pyStartsWith f "D"
    let v1 := inc.foldl (fun a i => if fnmatch path i then true else a) v0
    some (exc.foldl (fun a e => if fnmatch path e then false else a) v1)

/-- `FileList.filter files include exclude`: keep the lines whose verdict
is true; `none` models the exception the source raises on a malformed
line. -/
def FileList.filter : List String → List String → List String → Option (List String)
  | [], _, _ => some []
  | f :: fs, inc, exc =>
    match filterVerdict f inc exc with
    | none => none
    | some v =>
      match FileList.filter fs inc exc with
      | none => none
      | some rest => some (if v then f :: rest else rest)

/-! ### Python dicts as association lists -/

/-- Python `dict` lookup `m[k]` (as `Option`); keys built by the code are
unique, so first-match lookup is dict lookup. -/
def lookupAL (k : String) : List (String × FParam) → Option FParam
  | [] => none
  | (k2, v) :: rest => if k2 = k then some v else lookupAL k rest

/-- Python `m[k] = v`: replace in place when the key exists, append
otherwise (preserves dict insertion order). -/
def upsert (m : List (String × FParam)) (k : String) (v : FParam) : List (String × FParam) :=
  match m with
  | [] => [(k, v)]
  | (k2, v2) :: rest => if k2 = k then (k, v) :: rest else (k2, v2) :: upsert rest k v

/-- Python `m1 |= m2` / `m1.update(m2)`: assign every entry of `m2` into
`m1` in order; the right operand wins on common keys. -/
def dictUnion (m1 m2 : List (String × FParam)) : List (String × FParam) :=
  m2.foldl (fun acc e => upsert acc e.1 e.2) m1

/-! ### `FileList.as_map` (rsync.py lines 232–246) -/

/-- Loop of `as_map`: decode each line and assign it into the accumulating
dict; a malformed line raises (`none`). -/
def as_mapGo (abs_path : String) : List String → List (String × FParam) → Option (List (String × FParam))
  | [], acc => some acc
  | f :: fs, acc =>
    match decodeLine f abs_path with
    | none => none
    | some (p, prm) => as_mapGo abs_path fs (upsert acc p prm)

/-- `FileList.as_map files abs_path`: the path-keyed metadata dict.  Note
that the source maps **every** line, directory lines included. -/
def FileList.as_map (files : List String) (abs_path : String) : Option (List (String × FParam)) :=
  as_mapGo abs_path files []

/-! ### Sorting (Python `sorted` on strings: lexicographic by code point) -/

/-- Code-point lexicographic `≤` on strings, as Python compares `str`. -/
def strLeB (a b : String) : Bool :=
  go a.data b.data
where
  go : List Char → List Char → Bool
    | [], _ => true
    | _ :: _, [] => false
    | c :: as2, d :: bs2 =>
      if c.toNat < d.toNat then true
      else if d.toNat < c.toNat then false
      else go as2 bs2

/-- Insert into a sorted list. -/
def insertSorted (x : String) : List String → List String
  | [] => [x]
  | y :: ys => if strLeB x y then x :: y :: ys else y :: insertSorted x ys

/-- `sorted(...)` for lists of strings. -/
def sortStr : List String → List String
  | [] => []
  | x :: xs => insertSorted x (sortStr xs)

/-- Deduplication: Python's `set(...)` identifies duplicates before
`sorted` produces its canonical list (keys of a dict are already unique,
so on real inputs this is the identity). -/
def dedupStr : List String → List String
  | [] => []
  | x :: xs => if x ∈ xs then dedupStr xs else x :: dedupStr xs

/-! ### The diff engine (rsync.py lines 139–158) -/

/-- The three plan sets `(to_del, to_add, to_upd)` computed by
`rsync_magic`:

* `to_del = sorted(rk - lk)`
* `to_add = sorted(lk - rk)`
* `to_upd`: over `rk & lk`, skip keys whose local entry is a directory,
  and keep keys where kind, level or size differ or the remote mtime is
  strictly older than the local mtime; then `sorted`. -/
def diffPlan (local_files remote_files : List (String × FParam)) :
    List String × List String × List String :=
  let lk := local_files.map Prod.fst
  let rk := remote_files.map Prod.fst
  let to_del := sortStr (dedupStr (rk.filter (fun k => decide (k ∉ lk))))
  let to_add := sortStr (dedupStr (lk.filter (fun k => decide (k ∉ rk))))
  let updPred : String → Bool := fun u =>
    match lookupAL u remote_files, lookupAL u local_files with
    | some rf, some lf =>
      if lf.is_dir then false
      else
        decide (rf.is_dir ≠ lf.is_dir) || decide (rf.level ≠ lf.level) ||
          decide (rf.size ≠ lf.size) || decide (rf.mtime < lf.mtime)
    | _, _ => false
  let to_upd := sortStr (dedupStr ((rk.filter (fun u => decide (u ∈ lk))).filter updPred))
  (to_del, to_add, to_upd)

/-! ### The sync applier (rsync.py lines 160–189) -/

/-- A remote channel operation: `rm_rf(kernel, path)` or
`fput(kernel, src, dst)`. -/
inductive ChanOp where
  | rm_rf (path : String)
  | fput (src dst : String)
deriving DecidableEq, Repr

/-- `local_files[f]["abs_path"]` (total; the applier only evaluates it for
keys of `local_files`). -/
def absOf (m : List (String × FParam)) (f : String) : String :=
  match lookupAL f m with
  | some v => v.abs_path
  | none => ""

/-- Python `args.remote_path[0]`: the first character of the remote-path
string (`args.remote_path` is a single string, so indexing yields a
character). -/
def strHead (s : String) : String :=
  match s.data with
  | [] => ""
  | c :: _ => String.mk [c]

/-- `os.path.join(a, b)` for POSIX paths as used here. -/
def path_join (a b : String) : String :=
  if pyStartsWith b "/" then b
  else if a = "" then b
  else if pyEndsWith a "/" then a ++ b
  else a ++ "/" ++ b

/-- The apply phase of `rsync_magic` (lines 160–189), abstracted to the
observables the claims are about: the per-file progress lines printed
(`reported`, first component; phase headers and colors omitted) and the
ordered trace of channel operations (second component).

* empty plan: print the match message, do nothing (`([], [])` here);
* delete phase: `rm_rf kernel f` for `f ∈ to_del`, unless `dry_run` or
  `upload_only`;
* add and update phases: `fput kernel src dst` with
  `src = os.path.join(local_files[f]["abs_path"], f)` and
  `dst = os.path.join(args.remote_path[0], f)`, unless `dry_run`. -/
def rsyncRun (local_files remote_files : List (String × FParam))
    (dry_run upload_only : Bool) (remote_path : String) :
    List String × List ChanOp :=
  let plan := diffPlan local_files remote_files
  let to_del := plan.1
  let to_add := plan.2.1
  let to_upd := plan.2.2
  if to_del.length + to_add.length + to_upd.length = 0 then ([], [])
  else
    let mkPut : String → ChanOp := fun f =>
      ChanOp.fput (path_join (absOf local_files f) f) (path_join (strHead remote_path) f)
    let delOps := if !dry_run && !upload_only then to_del.map ChanOp.rm_rf else []
    let addOps := if !dry_run then to_add.map mkPut else []
    let updOps := if !dry_run then to_upd.map mkPut else []
    (to_del ++ to_add ++ to_upd, delOps ++ addOps ++ updOps)

/-! ### The local tree walker `local_list` (rsync.py lines 249–265)

The filesystem seen by the walker is modelled as a tree: `stat` results
become the node's stored size/mtime, and a directory's children are stored
in the order `sorted(os.listdir())` yields, i.e. already sorted by name.
The source's `os.chdir` bookkeeping only serves to make the recursive
`os.stat(p)` resolve; the model passes the node directly, which is the
same traversal. -/

mutual
inductive FSNode where
  | file (size mtime : Nat) : FSNode
  | dir (mtime : Nat) (children : FSDir) : FSNode
inductive FSDir where
  | nil : FSDir
  | cons (name : String) (node : FSNode) (rest : FSDir) : FSDir
end

mutual
/-- `local_list(path, files, level, full_path)`: a regular file appends one
`F` line; a directory appends its own `D` line when `level >= 0` (so the
walk root at `level == -1` is skipped) and then recurses into its children
with `level + 1` and `full_path + "/" + name`.  The initial call is
`local_list node (-1) ""`. -/
def local_list : FSNode → Int → String → List String
  | FSNode.file size mtime, level, full_path => [encF level full_path mtime size]
  | FSNode.dir mtime children, level, full_path =>
    (if 0 ≤ level then [encD level full_path mtime] else []) ++
      local_list_children children level full_path

/-- The `for p in sorted(os.listdir())` loop of `local_list`. -/
def local_list_children : FSDir → Int → String → List String
  | FSDir.nil, _, _ => []
  | FSDir.cons name c rest, level, full_path =>
    local_list c (level + 1) (full_path ++ "/" ++ name) ++
      local_list_children rest level full_path
end

/-! ### `FileList.__init__` (rsync.py lines 192–213)

The constructor walks each root `p` of the path list, filters, reduces to
a map, and merges with `self.files |= ...`.  The walker is abstracted as a
function from the root path to its listing lines (`local_list(p)` or
`remote_list(kernel, p)`); the `$MP_LOCAL_PATH`/`$MP_REMOTE_PATH`
defaulting for an empty path list is environment plumbing outside the
claims and is not modelled. -/

/-- Listing, filtering and mapping of a single root
(`file_list = ...; filtered_list = self.filter(...); self.as_map(filtered_list, p)`). -/
def perRootMap (walker : String → List String) (inc exc : List String) (p : String) :
    Option (List (String × FParam)) :=
  match FileList.filter (walker p) inc exc with
  | none => none
  | some fl => FileList.as_map fl p

/-- The `for p in path` loop of `FileList.__init__`, accumulating
`self.files`. -/
def fileListGo (walker : String → List String) (inc exc : List String) :
    List String → List (String × FParam) → Option (List (String × FParam))
  | [], acc => some acc
  | p :: ps, acc =>
    match perRootMap walker inc exc p with
    | none => none
    | some m => fileListGo walker inc exc ps (dictUnion acc m)

/-- `FileList(...).files` for a given walker, root-path list and pattern
sets. -/
def fileListFiles (walker : String → List String) (path inc exc : List String) :
    Option (List (String × FParam)) :=
  fileListGo walker inc exc path []

/-! ## Helper lemmas -/

theorem mem_insertSorted (a x : String) (l : List String) :
    a ∈ insertSorted x l ↔ a = x ∨ a ∈ l := by
  induction l with
  | nil => simp [insertSorted]
  | cons y ys ih =>
    simp only [insertSorted]
    split
    · simp [List.mem_cons]
    · simp only [List.mem_cons, ih]
      tauto

theorem mem_sortStr (a : String) (l : List String) : a ∈ sortStr l ↔ a ∈ l := by
  induction l with
  | nil => simp [sortStr]
  | cons x xs ih => simp [sortStr, mem_insertSorted, ih]

theorem mem_dedupStr (a : String) (l : List String) : a ∈ dedupStr l ↔ a ∈ l := by
  induction l with
  | nil => simp [dedupStr]
  | cons x xs ih =>
    simp only [dedupStr]
    split
    · rename_i hx
      rw [ih, List.mem_cons]
      constructor
      · exact Or.inr
      · rintro (rfl | h)
        · exact hx
        · exact h
    · simp only [List.mem_cons, ih]

theorem lookupAL_isSome (k : String) (m : List (String × FParam)) :
    (lookupAL k m).isSome = true ↔ k ∈ m.map Prod.fst := by
  induction m with
  | nil => simp [lookupAL]
  | cons e rest ih =>
    obtain ⟨k2, v⟩ := e
    simp only [lookupAL, List.map_cons, List.mem_cons]
    split
    · rename_i h
      simp [h]
    · rename_i h
      rw [ih]
      constructor
      · exact Or.inr
      · rintro (rfl | hm)
        · exact absurd rfl h
        · exact hm

theorem lookupAL_some_mem (k : String) (v : FParam) (m : List (String × FParam))
    (h : lookupAL k m = some v) : (k, v) ∈ m := by
  induction m with
  | nil => simp [lookupAL] at h
  | cons e rest ih =>
    obtain ⟨k2, v2⟩ := e
    simp only [lookupAL] at h
    split at h
    · rename_i hk
      cases h
      subst hk
      exact List.mem_cons_self _ _
    · exact List.mem_cons_of_mem _ (ih h)

theorem foldl_inc_true (p : String) (inc : List String) :
    inc.foldl (fun a i => if fnmatch p i then true else a) true = true := by
  induction inc with
  | nil => rfl
  | cons i rest ih =>
    simp only [List.foldl]
    split <;> exact ih

theorem foldl_exc_false (p : String) (exc : List String) :
    exc.foldl (fun a e => if fnmatch p e then false else a) false = false := by
  induction exc with
  | nil => rfl
  | cons e rest ih =>
    simp only [List.foldl]
    split <;> exact ih

theorem foldl_exc_all (p : String) (exc : List String) :
    exc.foldl (fun a e => if fnmatch p e then false else a) true
      = exc.all (fun e => !fnmatch p e) := by
  induction exc with
  | nil => rfl
  | cons e rest ih =>
    simp only [List.foldl, List.all_cons]
    by_cases h : fnmatch p e = true
    · rw [if_pos h, foldl_exc_false, h]
      rfl
    · have h2 : fnmatch p e = false := by
        revert h
        cases fnmatch p e <;> simp
      rw [if_neg h, ih, h2]
      rfl

theorem foldl_exc_mem_false (p : String) (exc : List String) (e : String)
    (he : e ∈ exc) (hm : fnmatch p e = true) :
    ∀ init, exc.foldl (fun a x => if fnmatch p x then false else a) init = false := by
  induction exc with
  | nil => cases he
  | cons x rest ih =>
    intro init
    simp only [List.foldl]
    rcases List.mem_cons.mp he with rfl | hr
    · rw [if_pos hm]
      exact foldl_exc_false p rest
    · exact ih hr _

theorem filter_mem_verdict (files inc exc out : List String)
    (h : FileList.filter files inc exc = some out) :
    ∀ x ∈ out, filterVerdict x inc exc = some true := by
  induction files generalizing out with
  | nil =>
    simp only [FileList.filter] at h
    cases h
    intro x hx
    cases hx
  | cons f fs ih =>
    simp only [FileList.filter] at h
    cases hv : filterVerdict f inc exc with
    | none => rw [hv] at h; cases h
    | some v =>
      rw [hv] at h
      cases hrest : FileList.filter fs inc exc with
      | none => rw [hrest] at h; cases h
      | some rest =>
        rw [hrest] at h
        cases h
        intro x hx
        cases v with
        | true =>
          rcases List.mem_cons.mp hx with rfl | hr
          · exact hv
          · exact ih rest hrest x hr
        | false => exact ih rest hrest x hx

/-! ## Claims about the diff engine -/

/-- C7: for every pair of maps `A`, `B`, the `toDelete` set of
`diff(A,B)` equals the `toAdd` set of `diff(B,A)` and vice versa — both
are `sorted(keys(B) - keys(A))` resp. `sorted(keys(A) - keys(B))`. -/
theorem diff_symmetry (A B : List (String × FParam)) :
    (diffPlan A B).1 = (diffPlan B A).2.1 ∧ (diffPlan A B).2.1 = (diffPlan B A).1 :=
  ⟨rfl, rfl⟩

/-- C1 counterexample: two maps agreeing on the key `"a.py"` in kind,
level and **size** (both 10 bytes) but with the remote modification time
(100) strictly older than the local one (200).  The claim says `toUpdate`
is decided by size alone, hence should be empty here; the code also
compares `mtime` and returns `["a.py"]`. -/
theorem diff_toUpdate_mtime_counterexample :
    (diffPlan [("a.py", ⟨false, 0, 200, 10, "L"⟩)] [("a.py", ⟨false, 0, 100, 10, "R"⟩)]).2.2
      = ["a.py"] := by decide

/-- C1 (amended): a key is in `toUpdate` iff it is present in both maps,
its local entry is not a directory, and kind, level or size differ or the
remote mtime is strictly older than the local mtime — i.e. modification
time, kind and level do play a role. -/
theorem diff_toUpdate_membership (A B : List (String × FParam)) (k : String) :
    k ∈ (diffPlan A B).2.2 ↔
      ∃ lf rf, lookupAL k A = some lf ∧ lookupAL k B = some rf ∧ lf.is_dir = false ∧
        (rf.is_dir ≠ lf.is_dir ∨ rf.level ≠ lf.level ∨ rf.size ≠ lf.size ∨
          rf.mtime < lf.mtime) := by
  simp only [diffPlan]
  rw [mem_sortStr, mem_dedupStr, List.mem_filter, List.mem_filter]
  constructor
  · rintro ⟨⟨hkB, hkA⟩, hpred⟩
    have hkA2 : k ∈ A.map Prod.fst := of_decide_eq_true hkA
    obtain ⟨rf, hrf⟩ : ∃ rf, lookupAL k B = some rf := by
      have := (lookupAL_isSome k B).mpr hkB
      cases hB : lookupAL k B
      · rw [hB] at this; cases this
      · exact ⟨_, rfl⟩
    obtain ⟨lf, hlf⟩ : ∃ lf, lookupAL k A = some lf := by
      have := (lookupAL_isSome k A).mpr hkA2
      cases hA : lookupAL k A
      · rw [hA] at this; cases this
      · exact ⟨_, rfl⟩
    simp only [hrf, hlf] at hpred
    by_cases hdir : lf.is_dir = true
    · rw [if_pos hdir] at hpred
      cases hpred
    · have hdir2 : lf.is_dir = false := by
        revert hdir
        cases lf.is_dir <;> simp
      rw [if_neg hdir] at hpred
      refine ⟨lf, rf, hlf, hrf, hdir2, ?_⟩
      simp only [Bool.or_eq_true, decide_eq_true_eq] at hpred
      tauto
  · rintro ⟨lf, rf, hlf, hrf, hdir, hcond⟩
    refine ⟨⟨?_, ?_⟩, ?_⟩
    · exact (lookupAL_isSome k B).mp (by rw [hrf]; rfl)
    · exact decide_eq_true ((lookupAL_isSome k A).mp (by rw [hlf]; rfl))
    · simp only [hrf, hlf]
      rw [if_neg (by rw [hdir]; exact Bool.false_ne_true)]
      simp only [Bool.or_eq_true, decide_eq_true_eq]
      tauto

/-! ## Claims about the pattern filter -/

/-- C5 counterexample: the directory line `D,0,'/lib',7,0` is dropped by
`filter` when the exclude set contains `lib`, although the claim says a
directory entry is retained regardless of which patterns its path
matches. -/
theorem filter_directory_excluded_counterexample :
    FileList.filter [encD 0 "/lib" 7] ["*"] ["lib"] = some [] := by decide

/-- C5 (amended): a directory line's verdict ignores the include patterns
(the verdict starts true) but is still subject to the exclude patterns: it
is kept iff no exclude pattern matches its path. -/
theorem filter_directory_verdict (f : String) (inc exc : List String) (p : String)
    (hD : pyStartsWith f "D" = true) (hp : extractPath f = some p) :
    filterVerdict f inc exc = some (exc.all (fun e => !fnmatch p e)) := by
  simp only [filterVerdict, hp, hD]
  rw [foldl_inc_true, foldl_exc_all]

/-- Witness for the amended C5 theorem at a concrete directory line. -/
theorem filter_directory_verdict_witness :
    filterVerdict (encD 0 "/lib" 7) ["*.py"] ["lib"]
      = some (["lib"].all (fun e => !fnmatch "lib" e)) :=
  filter_directory_verdict (encD 0 "/lib" 7) ["*.py"] ["lib"] "lib" (by decide) (by decide)

/-- C6: an entry whose path matches at least one include pattern and at
least one exclude pattern is never in the filter output: the include
loop runs first and the exclude loop then forces the verdict to false, so
no include set can rescue an excluded path. -/
theorem filter_exclude_overrides_include (files inc exc out : List String) (f p : String)
    (hp : extractPath f = some p)
    (_hi : ∃ i ∈ inc, fnmatch p i = true)
    (he : ∃ e ∈ exc, fnmatch p e = true)
    (hout : FileList.filter files inc exc = some out) :
    f ∉ out := by
  intro hmem
  have hv := filter_mem_verdict files inc exc out hout f hmem
  obtain ⟨e, heexc, hematch⟩ := he
  have hfalse : filterVerdict f inc exc = some false := by
    simp only [filterVerdict, hp]
    rw [foldl_exc_mem_false p exc e heexc hematch]
  rw [hfalse] at hv
  simp at hv

/-- Witness for C6 at a concrete file line matching both `*` and `a.py`. -/
theorem filter_exclude_overrides_include_witness :
    encF 0 "/a.py" 1 10 ∉ ([] : List String) :=
  filter_exclude_overrides_include [encF 0 "/a.py" 1 10] ["*"] ["a.py"] []
    (encF 0 "/a.py" 1 10) "a.py" (by decide)
    ⟨"*", by decide, by decide⟩ ⟨"a.py", by decide, by decide⟩ (by decide)

/-! ## Claims about the map builder -/

/-- C4 counterexample: `as_map` applied to the single directory line
`D,0,'/lib',7,0` produces a map whose only key `"lib"` is a directory
entry (`is_dir = true`), although the claim says a directory path is
never a map key. -/
theorem as_map_directory_key_counterexample :
    FileList.as_map [encD 0 "/lib" 7] "r" = some [("lib", ⟨true, 0, 7, 0, "r"⟩)] := by
  decide

theorem lookupAL_upsert_self (m : List (String × FParam)) (k : String) (v : FParam) :
    lookupAL k (upsert m k v) = some v := by
  induction m with
  | nil => simp [upsert, lookupAL]
  | cons e rest ih =>
    obtain ⟨k2, v2⟩ := e
    simp only [upsert]
    split
    · simp [lookupAL]
    · rename_i h
      simp only [lookupAL, if_neg h]
      exact ih

theorem lookupAL_upsert_other (m : List (String × FParam)) (k k2 : String) (v : FParam)
    (h : k2 ≠ k) : lookupAL k (upsert m k2 v) = lookupAL k m := by
  induction m with
  | nil => simp [upsert, lookupAL, h]
  | cons e rest ih =>
    obtain ⟨k3, v3⟩ := e
    simp only [upsert]
    split
    · rename_i h3
      subst h3
      simp [lookupAL, if_neg h]
    · simp only [lookupAL]
      split
      · rfl
      · exact ih

theorem lookupAL_upsert_isSome (m : List (String × FParam)) (k k2 : String) (v : FParam)
    (h : (lookupAL k m).isSome = true) : (lookupAL k (upsert m k2 v)).isSome = true := by
  by_cases hk : k2 = k
  · subst hk
    rw [lookupAL_upsert_self]
    rfl
  · rw [lookupAL_upsert_other m k k2 v hk]
    exact h

theorem as_mapGo_isSome (a : String) (files : List String) (acc m : List (String × FParam))
    (h : as_mapGo a files acc = some m) (k : String)
    (hk : (lookupAL k acc).isSome = true) : (lookupAL k m).isSome = true := by
  induction files generalizing acc with
  | nil =>
    simp only [as_mapGo] at h
    cases h
    exact hk
  | cons f fs ih =>
    simp only [as_mapGo] at h
    cases hd : decodeLine f a with
    | none => rw [hd] at h; cases h
    | some e =>
      rw [hd] at h
      exact ih (upsert acc e.1 e.2) h (lookupAL_upsert_isSome acc k e.1 e.2 hk)

/-- C4 (amended): the map built by `as_map` has a key for **every**
successfully decoded line, directory lines included: each line of the
input decodes (otherwise the call raises) and its stripped path is a key
of the resulting map. -/
theorem as_mapGo_has_entry (a : String) (files : List String) :
    ∀ acc m, as_mapGo a files acc = some m → ∀ f ∈ files,
      ∃ p prm, decodeLine f a = some (p, prm) ∧ (lookupAL p m).isSome = true := by
  induction files with
  | nil =>
    intro acc m h f hf
    cases hf
  | cons g gs ih =>
    intro acc m h f hf
    simp only [as_mapGo] at h
    cases hd : decodeLine g a with
    | none => rw [hd] at h; cases h
    | some e =>
      rw [hd] at h
      rcases List.mem_cons.mp hf with rfl | hr
      · refine ⟨e.1, e.2, by rw [hd], ?_⟩
        exact as_mapGo_isSome a gs _ m h e.1 (by rw [lookupAL_upsert_self]; rfl)
      · exact ih _ m h f hr

theorem as_map_has_every_entry (files : List String) (a : String)
    (m : List (String × FParam)) (f : String)
    (hm : FileList.as_map files a = some m) (hf : f ∈ files) :
    ∃ p prm, decodeLine f a = some (p, prm) ∧ (lookupAL p m).isSome = true := by
  rw [FileList.as_map] at hm
  exact as_mapGo_has_entry a files [] m hm f hf

/-! ## The wire-format round trip -/

/-- A path containing both a comma and a quote character: `a'b,c`. -/
def commaQuotePath : String := "a" ++ String.mk [sqC] ++ "b,c"

/-- C3: `local_list` encodes the path `a'b,c` as the double-quoted
literal Python `repr` produces, but `as_map` splits the line at **every**
comma and unpacks exactly five fields, so the resulting six-field line
raises `ValueError` (modelled as `none`) instead of decoding back to the
original path.  The spec's requirement that the quoted literal survive
field splitting (split at most 4 times) is not met by the code. -/
theorem wire_roundtrip_comma_fails :
    decodeLine (encF 0 commaQuotePath 5 7) "r" = none ∧
      FileList.as_map [encF 0 commaQuotePath 5 7] "r" = none := by
  decide

/-! ## Claims about the sync applier -/

theorem mem_toDel_not_local (A B : List (String × FParam)) (k : String)
    (h : k ∈ (diffPlan A B).1) : k ∉ A.map Prod.fst := by
  simp only [diffPlan] at h
  rw [mem_sortStr, mem_dedupStr, List.mem_filter] at h
  exact of_decide_eq_true h.2

theorem mem_toUpd_local (A B : List (String × FParam)) (k : String)
    (h : k ∈ (diffPlan A B).2.2) : k ∈ A.map Prod.fst := by
  simp only [diffPlan] at h
  rw [mem_sortStr, mem_dedupStr, List.mem_filter, List.mem_filter] at h
  exact of_decide_eq_true h.1.2

/-- C2 counterexample: a one-file plan where `a.py` needs an update
(sizes 10 vs 12).  The claim requires the applier to emit
`rm_rf "a.py"` before the upload; the actual operation trace is the
single `fput`, with no delete at all. -/
theorem update_trace_counterexample :
    (rsyncRun [("a.py", ⟨false, 0, 5, 10, "L"⟩)]
        [("a.py", ⟨false, 0, 1, 12, "/"⟩)] false false "/").2
      = [ChanOp.fput "L/a.py" "/a.py"] := by
  decide

/-- C2 (amended): in a non-dry-run sync, every `toUpdate` path is applied
by uploading directly with the same `fput` primitive and joined source and
destination paths used for `toAdd` entries; no delete of the path is
performed (the trace contains no `rm_rf` for it). -/
theorem update_upload_without_delete (lf rf : List (String × FParam)) (uo : Bool)
    (rp f : String) (hf : f ∈ (diffPlan lf rf).2.2) :
    ChanOp.fput (path_join (absOf lf f) f) (path_join (strHead rp) f)
        ∈ (rsyncRun lf rf false uo rp).2 ∧
      ChanOp.rm_rf f ∉ (rsyncRun lf rf false uo rp).2 := by
  have hne : ¬((diffPlan lf rf).1.length + (diffPlan lf rf).2.1.length +
      (diffPlan lf rf).2.2.length = 0) := by
    intro h0
    have hlen : (diffPlan lf rf).2.2.length = 0 := by omega
    rw [List.length_eq_zero] at hlen
    rw [hlen] at hf
    cases hf
  constructor
  · show _ ∈ (if (diffPlan lf rf).1.length + (diffPlan lf rf).2.1.length +
        (diffPlan lf rf).2.2.length = 0 then (([], []) : List String × List ChanOp) else _).2
    rw [if_neg hne]
    exact List.mem_append_right _ (List.mem_map_of_mem _ hf)
  · intro hmem
    have hlk : f ∈ lf.map Prod.fst := mem_toUpd_local lf rf f hf
    rw [show (rsyncRun lf rf false uo rp) = _ from rfl] at hmem
    simp only [rsyncRun] at hmem
    rw [if_neg hne] at hmem
    rcases List.mem_append.mp hmem with h1 | h2
    · rcases List.mem_append.mp h1 with hdel | hadd
      · cases uo with
        | true => cases hdel
        | false =>
          obtain ⟨g, hg, heq⟩ := List.mem_map.mp hdel
          cases heq
          exact mem_toDel_not_local lf rf f hg hlk
      · obtain ⟨g, hg, heq⟩ := List.mem_map.mp hadd
        cases heq
    · obtain ⟨g, hg, heq⟩ := List.mem_map.mp h2
      cases heq

/-- Witness for the amended C2 theorem at the one-file update plan. -/
theorem update_upload_without_delete_witness :
    ChanOp.fput (path_join (absOf [("a.py", ⟨false, 0, 5, 10, "L"⟩)] "a.py") "a.py")
        (path_join (strHead "/") "a.py")
      ∈ (rsyncRun [("a.py", ⟨false, 0, 5, 10, "L"⟩)]
          [("a.py", ⟨false, 0, 1, 12, "/"⟩)] false false "/").2 ∧
      ChanOp.rm_rf "a.py" ∉ (rsyncRun [("a.py", ⟨false, 0, 5, 10, "L"⟩)]
          [("a.py", ⟨false, 0, 1, 12, "/"⟩)] false false "/").2 :=
  update_upload_without_delete [("a.py", ⟨false, 0, 5, 10, "L"⟩)]
    [("a.py", ⟨false, 0, 1, 12, "/"⟩)] false "/" "a.py" (by decide)

/-- Witness for the amended C4 theorem at a single directory line. -/
theorem as_map_has_every_entry_witness :
    ∃ p prm, decodeLine (encD 0 "/lib" 7) "r" = some (p, prm) ∧
      (lookupAL p [("lib", ⟨true, 0, 7, 0, "r"⟩)]).isSome = true :=
  as_map_has_every_entry [encD 0 "/lib" 7] "r" [("lib", ⟨true, 0, 7, 0, "r"⟩)]
    (encD 0 "/lib" 7) (by decide) (by decide)

/-- C8: flag handling of the applier.  With `dry_run` set the channel
trace is empty (no delete and no upload at all); with `upload_only` set
the trace contains no `rm_rf` operation whatever `dry_run` is; and in all
modes every path of the three computed sets is reported (the plan is
computed and printed regardless of the flags). -/
theorem rsync_flags_skip_operations (lf rf : List (String × FParam)) (uo dr : Bool)
    (rp : String) :
    (rsyncRun lf rf true uo rp).2 = [] ∧
      (∀ q, ChanOp.rm_rf q ∉ (rsyncRun lf rf dr true rp).2) ∧
      (∀ f, f ∈ (diffPlan lf rf).1 ∨ f ∈ (diffPlan lf rf).2.1 ∨ f ∈ (diffPlan lf rf).2.2 →
        f ∈ (rsyncRun lf rf dr uo rp).1) := by
  refine ⟨?_, ?_, ?_⟩
  · simp only [rsyncRun]
    split
    · rfl
    · rfl
  · intro q hq
    simp only [rsyncRun] at hq
    cases dr with
    | true =>
      split at hq
      · cases hq
      · cases hq
    | false =>
      split at hq
      · cases hq
      · simp at hq
  · intro f hf
    simp only [rsyncRun]
    split
    · rename_i h0
      exfalso
      have h1 : (diffPlan lf rf).1 = [] := List.length_eq_zero.mp (by omega)
      have h2 : (diffPlan lf rf).2.1 = [] := List.length_eq_zero.mp (by omega)
      have h3 : (diffPlan lf rf).2.2 = [] := List.length_eq_zero.mp (by omega)
      rcases hf with h | h | h
      · rw [h1] at h; cases h
      · rw [h2] at h; cases h
      · rw [h3] at h; cases h
    · rcases hf with h | h | h
      · exact List.mem_append_left _ (List.mem_append_left _ h)
      · exact List.mem_append_left _ (List.mem_append_right _ h)
      · exact List.mem_append_right _ h

/-- Witness for C8: with `dry_run` and a non-empty plan, the deleted path
`old.py` is still reported. -/
theorem rsync_flags_skip_operations_witness :
    "old.py" ∈ (rsyncRun [("a.py", ⟨false, 0, 5, 10, "L"⟩)]
        [("a.py", ⟨false, 0, 1, 12, "/"⟩), ("old.py", ⟨false, 0, 1, 5, "/"⟩)]
        true false "/").1 :=
  (rsync_flags_skip_operations [("a.py", ⟨false, 0, 5, 10, "L"⟩)]
      [("a.py", ⟨false, 0, 1, 12, "/"⟩), ("old.py", ⟨false, 0, 1, 5, "/"⟩)]
      false true "/").2.2 "old.py" (Or.inl (by decide))

/-! ## Claims about the local tree walker -/

theorem append_slash_ne_empty (a b : String) : a ++ "/" ++ b ≠ "" := by
  intro h
  have hd := congrArg String.data h
  rw [String.data_append, String.data_append] at hd
  rcases List.append_eq_nil.mp hd with ⟨hd1, _⟩
  rcases List.append_eq_nil.mp hd1 with ⟨_, hslash⟩
  exact absurd hslash (by decide)

/-- Well-formedness of an emitted listing line: it is the encoding of an
entry with depth `≥ 0` and a non-empty relative path. -/
def lineOK (line : String) : Prop :=
  ∃ lv p, 0 ≤ lv ∧ p ≠ "" ∧
    ((∃ m s, line = encF lv p m s) ∨ (∃ m, line = encD lv p m))

mutual
theorem walkInv_node (n : FSNode) (lv : Int) (fp : String) (h0 : 0 ≤ lv) (h1 : fp ≠ "") :
    ∀ line ∈ local_list n lv fp, lineOK line := by
  cases n with
  | file size mtime =>
    intro line hline
    simp only [local_list] at hline
    rcases List.mem_singleton.mp hline with rfl
    exact ⟨lv, fp, h0, h1, Or.inl ⟨mtime, size, rfl⟩⟩
  | dir mtime children =>
    intro line hline
    simp only [local_list] at hline
    rcases List.mem_append.mp hline with hself | hchild
    · rw [if_pos h0] at hself
      rcases List.mem_singleton.mp hself with rfl
      exact ⟨lv, fp, h0, h1, Or.inr ⟨mtime, rfl⟩⟩
    · exact walkInv_children children lv fp (by omega) line hchild

theorem walkInv_children (d : FSDir) (lv : Int) (fp : String) (h0 : -1 ≤ lv) :
    ∀ line ∈ local_list_children d lv fp, lineOK line := by
  cases d with
  | nil =>
    intro line hline
    simp only [local_list_children] at hline
    cases hline
  | cons name c rest =>
    intro line hline
    simp only [local_list_children] at hline
    rcases List.mem_append.mp hline with hc | hr
    · exact walkInv_node c (lv + 1) (fp ++ "/" ++ name) (by omega)
        (append_slash_ne_empty fp name) line hc
    · exact walkInv_children rest lv fp h0 line hr
end

/-- C9 counterexample: a walk whose root path names a regular file.  The
walker emits the root itself, as a line with depth `-1` and empty
relative path — contradicting "depth ≥ 0", "path never empty" and "the
root is never emitted". -/
theorem local_list_file_root_counterexample :
    local_list (FSNode.file 10 100) (-1) "" = [encF (-1) "" 100 10] ∧
      decodeLine (encF (-1) "" 100 10) "x" = some ("", ⟨false, -1, 100, 10, "x"⟩) :=
  ⟨rfl, by decide⟩

/-- C9 (amended): when the walk root is a **directory**, every emitted
line encodes an entry with depth ≥ 0 and a non-empty path; in particular
the root itself (relative path `""`) is never emitted. -/
theorem local_list_dir_root_entries (mt : Nat) (cs : FSDir) :
    ∀ line ∈ local_list (FSNode.dir mt cs) (-1) "", lineOK line := by
  intro line hline
  simp only [local_list] at hline
  rw [if_neg (by decide)] at hline
  rw [List.nil_append] at hline
  exact walkInv_children cs (-1) "" (by decide) line hline

/-- Witness for the amended C9 theorem on a one-file directory tree. -/
theorem local_list_dir_root_entries_witness :
    lineOK (encF 0 "/a.py" 100 10) :=
  local_list_dir_root_entries 5 (FSDir.cons "a.py" (FSNode.file 10 100) FSDir.nil)
    (encF 0 "/a.py" 100 10) (by decide)

/-! ## Claims about the multi-root `FileList` merge -/

theorem mem_keys_upsert (m : List (String × FParam)) (k : String) (v : FParam) (a : String) :
    a ∈ (upsert m k v).map Prod.fst ↔ a ∈ m.map Prod.fst ∨ a = k := by
  induction m with
  | nil => simp [upsert]
  | cons e rest ih =>
    obtain ⟨k2, v2⟩ := e
    simp only [upsert]
    split
    · rename_i hk
      subst hk
      simp only [List.map_cons, List.mem_cons]
      tauto
    · simp only [List.map_cons, List.mem_cons, ih]
      tauto

theorem upsert_keys_nodup (m : List (String × FParam)) (k : String) (v : FParam)
    (h : (m.map Prod.fst).Nodup) : ((upsert m k v).map Prod.fst).Nodup := by
  induction m with
  | nil => simp [upsert]
  | cons e rest ih =>
    obtain ⟨k2, v2⟩ := e
    simp only [upsert]
    split
    · rename_i hk
      subst hk
      simpa using h
    · rename_i hk
      simp only [List.map_cons, List.nodup_cons] at h ⊢
      refine ⟨?_, ih h.2⟩
      intro hmem
      rcases (mem_keys_upsert rest k v k2).mp hmem with h2 | h2
      · exact h.1 h2
      · exact hk h2

theorem mem_upsert (m : List (String × FParam)) (k : String) (v : FParam) :
    ∀ e, e ∈ upsert m k v → e ∈ m ∨ e = (k, v) := by
  induction m with
  | nil =>
    intro e he
    simp only [upsert, List.mem_singleton] at he
    exact Or.inr he
  | cons e2 rest ih =>
    intro e he
    obtain ⟨k2, v2⟩ := e2
    simp only [upsert] at he
    split at he
    · rcases List.mem_cons.mp he with rfl | hr
      · exact Or.inr rfl
      · exact Or.inl (List.mem_cons_of_mem _ hr)
    · rcases List.mem_cons.mp he with rfl | hr
      · exact Or.inl (List.mem_cons_self _ _)
      · rcases ih e hr with h1 | h2
        · exact Or.inl (List.mem_cons_of_mem _ h1)
        · exact Or.inr h2

theorem lookupAL_eq_none (k : String) (m : List (String × FParam))
    (h : k ∉ m.map Prod.fst) : lookupAL k m = none := by
  cases hk : lookupAL k m with
  | none => rfl
  | some v =>
    exact absurd ((lookupAL_isSome k m).mp (by rw [hk]; rfl)) h

theorem decodeLine_absPath (f a : String) (e : String × FParam)
    (h : decodeLine f a = some e) : e.2.abs_path = a := by
  simp only [decodeLine] at h
  repeat' split at h
  all_goals cases h
  all_goals rfl

theorem as_mapGo_nodup (a : String) (files : List String) :
    ∀ acc m, (acc.map Prod.fst).Nodup → as_mapGo a files acc = some m →
      (m.map Prod.fst).Nodup := by
  induction files with
  | nil =>
    intro acc m hn h
    cases h
    exact hn
  | cons f fs ih =>
    intro acc m hn h
    simp only [as_mapGo] at h
    cases hd : decodeLine f a with
    | none => rw [hd] at h; cases h
    | some e =>
      rw [hd] at h
      exact ih _ m (upsert_keys_nodup acc e.1 e.2 hn) h

theorem as_map_nodup (files : List String) (a : String) (m : List (String × FParam))
    (h : FileList.as_map files a = some m) : (m.map Prod.fst).Nodup := by
  rw [FileList.as_map] at h
  exact as_mapGo_nodup a files [] m (by simp) h

theorem as_mapGo_absPath (a : String) (files : List String) :
    ∀ acc m, (∀ e ∈ acc, (e : String × FParam).2.abs_path = a) →
      as_mapGo a files acc = some m → ∀ e ∈ m, (e : String × FParam).2.abs_path = a := by
  induction files with
  | nil =>
    intro acc m hacc h
    cases h
    exact hacc
  | cons f fs ih =>
    intro acc m hacc h
    simp only [as_mapGo] at h
    cases hd : decodeLine f a with
    | none => rw [hd] at h; cases h
    | some e0 =>
      rw [hd] at h
      refine ih _ m ?_ h
      intro e he
      rcases mem_upsert acc e0.1 e0.2 e he with hin | heq
      · exact hacc e hin
      · rw [heq]
        exact decodeLine_absPath f a e0 hd

theorem perRootMap_nodup (walker : String → List String) (inc exc : List String)
    (p : String) (mp : List (String × FParam))
    (h : perRootMap walker inc exc p = some mp) : (mp.map Prod.fst).Nodup := by
  simp only [perRootMap] at h
  cases hf : FileList.filter (walker p) inc exc with
  | none => rw [hf] at h; cases h
  | some fl =>
    rw [hf] at h
    exact as_map_nodup fl p mp h

theorem perRootMap_absPath (walker : String → List String) (inc exc : List String)
    (p : String) (mp : List (String × FParam))
    (h : perRootMap walker inc exc p = some mp) :
    ∀ e ∈ mp, (e : String × FParam).2.abs_path = p := by
  simp only [perRootMap] at h
  cases hf : FileList.filter (walker p) inc exc with
  | none => rw [hf] at h; cases h
  | some fl =>
    rw [hf] at h
    exact as_mapGo_absPath p fl [] mp (by intro e he; cases he) h

theorem lookupAL_dictUnion_none (m2 : List (String × FParam)) :
    ∀ m1 k, lookupAL k m2 = none → lookupAL k (dictUnion m1 m2) = lookupAL k m1 := by
  induction m2 with
  | nil => intro m1 k _; rfl
  | cons e rest ih =>
    intro m1 k h
    obtain ⟨k0, v0⟩ := e
    simp only [lookupAL] at h
    split at h
    · cases h
    · rename_i hne
      show lookupAL k (dictUnion (upsert m1 k0 v0) rest) = lookupAL k m1
      rw [ih (upsert m1 k0 v0) k h]
      exact lookupAL_upsert_other m1 k k0 v0 hne

theorem lookupAL_dictUnion_some (m2 : List (String × FParam)) :
    ∀ m1 k v, (m2.map Prod.fst).Nodup → lookupAL k m2 = some v →
      lookupAL k (dictUnion m1 m2) = some v := by
  induction m2 with
  | nil =>
    intro m1 k v _ h
    cases h
  | cons e rest ih =>
    intro m1 k v hn h
    obtain ⟨k0, v0⟩ := e
    simp only [List.map_cons, List.nodup_cons] at hn
    simp only [lookupAL] at h
    split at h
    · rename_i hk
      cases h
      have hrest : lookupAL k rest = none := by
        rw [← hk]
        exact lookupAL_eq_none k0 rest hn.1
      show lookupAL k (dictUnion (upsert m1 k0 v) rest) = some v
      rw [lookupAL_dictUnion_none rest (upsert m1 k0 v) k hrest, ← hk]
      exact lookupAL_upsert_self m1 k0 v
    · show lookupAL k (dictUnion (upsert m1 k0 v0) rest) = some v
      exact ih (upsert m1 k0 v0) k v hn.2 h

theorem fileListGo_append (walker : String → List String) (inc exc : List String)
    (xs ys : List String) :
    ∀ acc, fileListGo walker inc exc (xs ++ ys) acc =
      match fileListGo walker inc exc xs acc with
      | none => none
      | some a2 => fileListGo walker inc exc ys a2 := by
  induction xs with
  | nil => intro acc; rfl
  | cons p ps ih =>
    intro acc
    simp only [List.cons_append, fileListGo]
    cases hp : perRootMap walker inc exc p with
    | none => rfl
    | some mp => exact ih _

theorem fileListGo_lookup_untouched (walker : String → List String) (inc exc : List String)
    (k : String) (ps : List String) :
    ∀ acc m, fileListGo walker inc exc ps acc = some m →
      (∀ q ∈ ps, ∀ mq, perRootMap walker inc exc q = some mq → lookupAL k mq = none) →
      lookupAL k m = lookupAL k acc := by
  induction ps with
  | nil =>
    intro acc m h _
    cases h
    rfl
  | cons p ps ih =>
    intro acc m h hnone
    simp only [fileListGo] at h
    cases hp : perRootMap walker inc exc p with
    | none => rw [hp] at h; cases h
    | some mp =>
      rw [hp] at h
      have hk : lookupAL k mp = none := hnone p (List.mem_cons_self p ps) mp hp
      rw [ih (dictUnion acc mp) m h (fun q hq => hnone q (List.mem_cons_of_mem p hq))]
      exact lookupAL_dictUnion_none mp acc k hk

/-- C10: when a `FileList` is built from several root paths, the per-root
maps are merged with last-wins dict union: if the relative path `k` is
defined by root `p` and by no later root, then the final map holds
exactly `p`'s entry for `k`, and that entry's `abs_path` (the upload
source prefix used later) is `p`. -/
theorem fileList_last_root_wins (walker : String → List String) (inc exc ps1 ps2 : List String)
    (p : String) (m mp : List (String × FParam)) (k : String) (v : FParam)
    (hAll : fileListFiles walker (ps1 ++ p :: ps2) inc exc = some m)
    (hp : perRootMap walker inc exc p = some mp)
    (hk : lookupAL k mp = some v)
    (hlater : ∀ q ∈ ps2, ∀ mq, perRootMap walker inc exc q = some mq → lookupAL k mq = none) :
    lookupAL k m = some v ∧ v.abs_path = p := by
  constructor
  · rw [fileListFiles] at hAll
    rw [fileListGo_append walker inc exc ps1 (p :: ps2) []] at hAll
    cases h1 : fileListGo walker inc exc ps1 [] with
    | none => rw [h1] at hAll; cases hAll
    | some acc1 =>
      rw [h1] at hAll
      simp only [fileListGo] at hAll
      rw [hp] at hAll
      rw [fileListGo_lookup_untouched walker inc exc k ps2 (dictUnion acc1 mp) m hAll hlater]
      exact lookupAL_dictUnion_some mp acc1 k v (perRootMap_nodup walker inc exc p mp hp) hk
  · exact perRootMap_absPath walker inc exc p mp hp (k, v) (lookupAL_some_mem k v mp hk)

/-- Witness for C10: two roots both containing `a.py`; the merged map
holds the entry of the later root `r2` (size 20, `abs_path = "r2"`). -/
theorem fileList_last_root_wins_witness :
    lookupAL "a.py" [("a.py", ⟨false, 0, 2, 20, "r2"⟩)] = some ⟨false, 0, 2, 20, "r2"⟩ ∧
      (⟨false, 0, 2, 20, "r2"⟩ : FParam).abs_path = "r2" :=
  fileList_last_root_wins
    (fun r => if r = "r1" then [encF 0 "/a.py" 1 10] else [encF 0 "/a.py" 2 20])
    ["*"] [] ["r1"] [] "r2" [("a.py", ⟨false, 0, 2, 20, "r2"⟩)]
    [("a.py", ⟨false, 0, 2, 20, "r2"⟩)] "a.py" ⟨false, 0, 2, 20, "r2"⟩
    (by decide) (by decide) (by decide)
    (by intro q hq; cases hq)
